import Mathlib

/-!
# Verification of `gto::basic_cstring` (torrentg/cstring)

A shallow embedding of `src/cstring.hpp`: an immutable, reference-counted
string handle whose allocation block holds `{counter, length, data, NUL}`.

Modelling conventions:
* A character unit (`value_type`) is a `Nat` code unit; the terminator
  (`value_type()`) is `0`.
* An allocation block is a record `{counter, len, data}` where `data` is the
  character array starting at `m_str` (the `len` content units followed by
  the terminator unit).  The 32-bit `counter` field is kept modulo `2 ^ 32`,
  mirroring the wraparound of `std::atomic&lt;uint32_t&gt;::fetch_add`.
* The heap is a map from allocation addresses to optional blocks; address
  `0` is the permanent empty-string singleton `m_empty`.  A handle is an
  entry `(handle id, bound address)` in an association list, mirroring the
  single `m_str` pointer of `basic_cstring`.
* Fallible operations (`at`, `substr`, the `(str, len)` constructor) return
  `Except`.
-/

namespace Cstr

/-- A character unit (`value_type`); the terminator `value_type()` is `0`. -/
abbrev Value := Nat

/-- `2 ^ 32`: one more than the maximum of the 32-bit `prefix_type`. -/
def W : Nat := 2 ^ 32

/-- `max_size()`: `std::numeric_limits<prefix_type>::max() - 1`. -/
def max_size : Nat := (W - 1) - 1

/-- An allocation block: reference counter, stored length (`ptr[1]`), and the
character array that `m_str` points at (content plus terminator). -/
structure Block where
  counter : Nat
  len : Nat
  data : List Value
deriving DecidableEq

/-- The permanent empty-string singleton `m_empty`:
`counter = 0`, `len = 0`, `str[2] = {value_type(), value_type()}`. -/
def emptyBlock : Block := { counter := 0, len := 0, data := [0, 0] }

/-- The block built by `basic_cstring(const_pointer str, size_type len)` when
`str != nullptr` and `0 < len`: counter `1`, stored length `len`, and `len`
units copied from the input followed by one terminator unit. -/
def mkBlock (buf : List Value) (len : Nat) : Block :=
  { counter := 1, len := len, data := buf.take len ++ [0] }

/-- Errors thrown by the embedded operations. -/
inductive Err where
  | lengthError
  | outOfRange
deriving DecidableEq

/-- `basic_cstring(const_pointer str, size_type len)`: throws
`std::length_error` when `len > max_size()`; binds the empty singleton when
`str == nullptr || len == 0`; otherwise allocates a fresh block via
`mkBlock`.  `buf = none` models a null `str`. -/
def cstringCtor (buf : Option (List Value)) (len : Nat) : Except Err Block :=
  if len > max_size then .error .lengthError
  else
    match buf with
    | none => .ok emptyBlock
    | some s => if len = 0 then .ok emptyBlock else .ok (mkBlock s len)

/-- `length()` / `size()`: the stored length field. -/
def lengthFn (bl : Block) : Nat := bl.len

/-- `view()`: the string view `(m_str, length())`, i.e. the first `len`
units of the data region. -/
def view (bl : Block) : List Value := bl.data.take bl.len

/-- `at(pos)`: `pos > length() ? throw std::out_of_range : m_str[pos]`. -/
def atFn (bl : Block) (pos : Nat) : Except Err Value :=
  if pos > bl.len then .error .outOfRange else .ok (bl.data.getD pos 0)

/-- `std::basic_string_view::substr(pos, len)`: throws `std::out_of_range`
when `pos > size()`, otherwise returns the view over
`[pos, pos + min(len, size() - pos))`. -/
def svSubstr (c : List Value) (pos len : Nat) : Except Err (List Value) :=
  if pos > c.length then .error .outOfRange else .ok ((c.drop pos).take len)

/-- `substr(pos, len)`: `view().substr(pos, len)`. -/
def substrFn (bl : Block) (pos len : Nat) : Except Err (List Value) :=
  svSubstr (view bl) pos len

/-- A block holding content `c`: stored length `c.length`, data `c` plus the
terminator, arbitrary counter `k`.  Every block a reachable handle is bound
to has this shape (`mkBlock buf len` is `contentBlock (buf.take len) 1` and
the singleton is `contentBlock [] 0` up to the second padding unit). -/
def contentBlock (c : List Value) (k : Nat) : Block :=
  { counter := k, len := c.length, data := c ++ [0] }

/- ------------------------------------------------------------------ -/
/- C1 / C5: construction                                              -/
/- ------------------------------------------------------------------ -/

theorem mkBlock_len (buf : List Value) (len : Nat) : (mkBlock buf len).len = len := rfl

theorem mkBlock_data_get (buf : List Value) (len i : Nat) (hle : len ≤ buf.length)
    (hi : i < len) : (mkBlock buf len).data.getD i 0 = buf.getD i 0 := by
  unfold mkBlock
  have hlt : i < (buf.take len).length := by
    simpa [List.length_take, Nat.lt_min] using And.intro hi (Nat.lt_of_lt_of_le hi hle)
  simp only [List.getD]
  rw [List.get?_append hlt, List.get?_take hi]

theorem mkBlock_data_term (buf : List Value) (len : Nat) (hle : len ≤ buf.length) :
    (mkBlock buf len).data.getD len 0 = 0 := by
  unfold mkBlock
  have hlen : (buf.take len).length = len := by
    simp [List.length_take, Nat.min_eq_left hle]
  simp only [List.getD]
  rw [List.get?_append_right (by omega)]
  simp [hlen]

/-- C1: constructing from a buffer and a valid positive length succeeds and
yields a block whose stored length is `len`, whose data agrees with the
input on every position below `len` (embedded terminator-valued units
included: the `∀ i < len` quantification makes no exception for them), and
whose unit at position `len` is the terminator. -/
theorem construct_copies_exactly (buf : List Value) (len : Nat)
    (h0 : 0 < len) (hmax : len ≤ max_size) (hbuf : len ≤ buf.length) :
    ∃ blk : Block, cstringCtor (some buf) len = .ok blk ∧
      lengthFn blk = len ∧
      (∀ i, i < len → blk.data.getD i 0 = buf.getD i 0) ∧
      blk.data.getD len 0 = 0 := by
  refine ⟨mkBlock buf len, ?_, rfl, ?_, mkBlock_data_term buf len hbuf⟩
  · unfold cstringCtor
    rw [if_neg (by omega)]
    simp [Nat.ne_of_gt h0]
  · intro i hi
    exact mkBlock_data_get buf len i hbuf hi

/-- Witness for `construct_copies_exactly`, at the buffer `[104, 0, 105]`
(which embeds a terminator-valued unit at position 1) and length 3. -/
theorem construct_copies_exactly_witness :
    0 < 3 ∧ 3 ≤ max_size ∧ 3 ≤ ([104, 0, 105] : List Value).length ∧
    (∃ blk : Block, cstringCtor (some [104, 0, 105]) 3 = .ok blk ∧
      lengthFn blk = 3 ∧
      (∀ i, i < 3 → blk.data.getD i 0 = ([104, 0, 105] : List Value).getD i 0) ∧
      blk.data.getD 3 0 = 0) :=
  ⟨by decide, by decide, by decide,
    construct_copies_exactly [104, 0, 105] 3 (by decide) (by decide) (by decide)⟩

/-- C5: the `(str, len)` constructor fails with the length error exactly when
`len` exceeds `max_size()` (which is the 32-bit prefix maximum minus one);
for any admissible length it returns a block and no error is raised.  In the
`Except` embedding the error branch carries no block: nothing is allocated
on failure. -/
theorem construct_length_error_iff (buf : Option (List Value)) (len : Nat) :
    (cstringCtor buf len = .error .lengthError ↔ max_size < len) ∧
    max_size = (2 ^ 32 - 1) - 1 ∧
    (len ≤ max_size → ∃ blk, cstringCtor buf len = .ok blk) := by
  refine ⟨?_, rfl, ?_⟩
  · constructor
    · intro h
      by_contra hc
      unfold cstringCtor at h
      rw [if_neg (by omega)] at h
      cases buf with
      | none => exact absurd h (by simp)
      | some s =>
        by_cases hz : len = 0 <;> simp [hz] at h
    · intro h
      unfold cstringCtor
      rw [if_pos (by omega)]
  · intro h
    unfold cstringCtor
    rw [if_neg (by omega)]
    cases buf with
    | none => exact ⟨emptyBlock, rfl⟩
    | some s =>
      by_cases hz : len = 0
      · exact ⟨emptyBlock, by simp [hz]⟩
      · exact ⟨mkBlock s len, by simp [hz]⟩

/-- Witness for `construct_length_error_iff` at buffer `[97]`, length 1. -/
theorem construct_length_error_iff_witness :
    (cstringCtor (some [97]) 1 = .error .lengthError ↔ max_size < 1) ∧
    max_size = (2 ^ 32 - 1) - 1 ∧
    (∃ blk, cstringCtor (some [97]) 1 = .ok blk) :=
  ⟨(construct_length_error_iff (some [97]) 1).1,
   (construct_length_error_iff (some [97]) 1).2.1,
   (construct_length_error_iff (some [97]) 1).2.2 (by decide)⟩

/- ------------------------------------------------------------------ -/
/- C6 / C7: checked access and substring                              -/
/- ------------------------------------------------------------------ -/

theorem contentBlock_data_get (c : List Value) (k i : Nat) (hi : i < c.length) :
    (contentBlock c k).data.getD i 0 = c.getD i 0 := by
  unfold contentBlock
  simp only [List.getD]
  rw [List.get?_append hi]

theorem contentBlock_data_term (c : List Value) (k : Nat) :
    (contentBlock c k).data.getD c.length 0 = 0 := by
  unfold contentBlock
  simp only [List.getD]
  rw [List.get?_append_right (Nat.le_refl _)]
  simp

/-- C6: checked access `at(pos)` on a handle with content `c` returns the
character at `pos` when `pos < length()`, the terminator value when
`pos = length()`, and fails with the out-of-range error exactly when
`pos > length()`. -/
theorem at_checked (c : List Value) (k pos : Nat) :
    atFn (contentBlock c k) pos =
      if pos ≤ c.length then
        .ok (if pos < c.length then c.getD pos 0 else 0)
      else .error .outOfRange := by
  unfold atFn
  by_cases hle : pos ≤ c.length
  · rw [if_neg (by simp [contentBlock]; omega), if_pos hle]
    by_cases hlt : pos < c.length
    · rw [if_pos hlt, contentBlock_data_get c k pos hlt]
    · have : pos = c.length := by omega
      subst this
      rw [if_neg hlt, contentBlock_data_term]
  · rw [if_pos (by simp [contentBlock]; omega), if_neg hle]

theorem view_contentBlock (c : List Value) (k : Nat) : view (contentBlock c k) = c := by
  unfold view contentBlock
  simp

/-- C7: `substr(pos, len)` on a handle with content `c` fails with the
out-of-range error exactly when `pos > length()`; returns the empty view
when `pos = length()`; returns the clamped view over `[pos, length())` when
`pos + len` reaches past the end; and otherwise returns the view over
`[pos, pos + len)`. -/
theorem substr_checked (c : List Value) (k pos len : Nat) :
    (substrFn (contentBlock c k) pos len = .error .outOfRange ↔ c.length < pos) ∧
    (pos = c.length → substrFn (contentBlock c k) pos len = .ok []) ∧
    (pos ≤ c.length → c.length ≤ pos + len →
      substrFn (contentBlock c k) pos len = .ok (c.drop pos)) ∧
    (pos + len ≤ c.length →
      substrFn (contentBlock c k) pos len = .ok ((c.drop pos).take len)) := by
  unfold substrFn svSubstr
  rw [view_contentBlock]
  refine ⟨?_, ?_, ?_, ?_⟩
  · by_cases h : c.length < pos
    · simp [gt_iff_lt, h]
    · simp [gt_iff_lt, h]
  · intro h
    subst h
    simp
  · intro h1 h2
    rw [if_neg (by omega)]
    have : (c.drop pos).take len = c.drop pos :=
      List.take_of_length_le (by simp; omega)
    rw [this]
  · intro h
    rw [if_neg (by omega)]

/-- Witness for `substr_checked` at `c = [1, 2]`, `pos = 2`, `len = 0`:
all three hypothesised conjuncts fire (empty view at the end, clamped view,
in-bounds view) and the error-iff is decided. -/
theorem substr_checked_witness :
    (substrFn (contentBlock [1, 2] 1) 2 0 = .error .outOfRange ↔
      ([1, 2] : List Value).length < 2) ∧
    substrFn (contentBlock [1, 2] 1) 2 0 = .ok [] ∧
    substrFn (contentBlock [1, 2] 1) 2 0 = .ok (([1, 2] : List Value).drop 2) ∧
    substrFn (contentBlock [1, 2] 1) 2 0 = .ok ((([1, 2] : List Value).drop 2).take 0) := by
  obtain ⟨h1, h2, h3, h4⟩ := substr_checked [1, 2] 1 2 0
  exact ⟨h1, h2 (by decide), h3 (by decide) (by decide), h4 (by decide)⟩

/- ------------------------------------------------------------------ -/
/- C9: whitespace trimming                                            -/
/- ------------------------------------------------------------------ -/

/-- `std::isspace` in the C locale on code units: `' '` (32) and the control
characters 9..13 (`\t \n \v \f \r`). -/
def wsp (v : Value) : Bool := v == 32 || (9 ≤ v && v ≤ 13)

/-- `ltrim()`: `ptr` starts at `m_str` and skips whitespace over the data
region (`content ++ [terminator]`; the loop always stops because
`wsp 0 = false`); the result is `basic_cstring_view(ptr)`, i.e. the units
from `ptr` up to the first terminator-valued unit. -/
def ltrimFn (c : List Value) : List Value :=
  ((c ++ [0]).dropWhile wsp).takeWhile (fun v => !(v == 0))

/-- The descending scan of `rtrim()`/`trim()`: with `ptr2 = r - 1`,
decrement while `ptr2 ≥ lo` and the unit at `ptr2` is whitespace; the
result is the final `ptr2 + 1`. -/
def rscan (c : List Value) (lo : Nat) : Nat → Nat
  | 0 => 0
  | r + 1 => if lo ≤ r ∧ wsp (c.getD r 0) then rscan c lo r else r + 1

/-- `rtrim()`: scan down from `m_str + length() - 1` with lower bound
`m_str`; the result is the view `(m_str, ptr2 + 1 - m_str)`. -/
def rtrimFn (c : List Value) : List Value := c.take (rscan c 0 c.length)

/-- `trim()`: `ptr1` skips whitespace from the left over the data region,
`ptr2` scans down from `m_str + length() - 1` with lower bound `ptr1`; the
result is the view `(ptr1, ptr2 + 1 - ptr1)`. -/
def trimFn (c : List Value) : List Value :=
  (c.take (rscan c ((c ++ [0]).takeWhile wsp).length c.length)).drop
    ((c ++ [0]).takeWhile wsp).length

/-- Modelled from the spec: the content with whitespace characters removed
from the left end. -/
def ltrimSpec (c : List Value) : List Value := c.dropWhile wsp

/-- Modelled from the spec: the content with whitespace characters removed
from the right end. -/
def rtrimSpec (c : List Value) : List Value := (c.reverse.dropWhile wsp).reverse

/-- Modelled from the spec: the content with whitespace characters removed
from both ends. -/
def trimSpec (c : List Value) : List Value := rtrimSpec (ltrimSpec c)

theorem wsp_term : wsp 0 = false := rfl

theorem takeWhile_wsp_append_term (c : List Value) :
    (c ++ [0]).takeWhile wsp = c.takeWhile wsp := by
  induction c with
  | nil => rfl
  | cons a t ih =>
    by_cases h : wsp a
    · simp [List.takeWhile_cons, h, ih]
    · simp [List.takeWhile_cons, h]

theorem dropWhile_wsp_append_term (c : List Value) :
    (c ++ [0]).dropWhile wsp = c.dropWhile wsp ++ [0] := by
  induction c with
  | nil => rfl
  | cons a t ih =>
    by_cases h : wsp a
    · simp [List.dropWhile_cons, h, ih]
    · simp [List.dropWhile_cons, h]

theorem takeWhile_ne_term_append (x : List Value) :
    (x ++ [0]).takeWhile (fun v => !(v == 0)) = x.takeWhile (fun v => !(v == 0)) := by
  induction x with
  | nil => rfl
  | cons a t ih =>
    by_cases h : a = 0
    · simp [List.takeWhile_cons, h]
    · simp [List.takeWhile_cons, h, ih]

theorem ltrimFn_eq (c : List Value) :
    ltrimFn c = (ltrimSpec c).takeWhile (fun v => !(v == 0)) := by
  unfold ltrimFn ltrimSpec
  rw [dropWhile_wsp_append_term, takeWhile_ne_term_append]

theorem rscan_le (c : List Value) (lo r : Nat) : rscan c lo r ≤ r := by
  induction r with
  | zero => exact Nat.le_refl 0
  | succ r ih =>
    unfold rscan
    by_cases h : lo ≤ r ∧ wsp (c.getD r 0)
    · rw [if_pos h]; omega
    · rw [if_neg h]

theorem rscan_self (c : List Value) (lo : Nat) : rscan c lo lo = lo := by
  cases lo with
  | zero => rfl
  | succ r => unfold rscan; rw [if_neg (fun hc => absurd hc.1 (by omega))]

theorem getD_append_lt (c l2 : List Value) (i : Nat) (h : i < c.length) :
    (c ++ l2).getD i 0 = c.getD i 0 := by
  simp only [List.getD]
  rw [List.get?_append h]

theorem getD_append_add (t s : List Value) (i : Nat) :
    (t ++ s).getD (t.length + i) 0 = s.getD i 0 := by
  simp only [List.getD]
  have h2 : t.length + i - t.length = i := by omega
  rw [List.get?_append_right (by omega), h2]

theorem rscan_concat (c : List Value) (a : Value) (lo r : Nat) (h : r ≤ c.length) :
    rscan (c ++ [a]) lo r = rscan c lo r := by
  induction r with
  | zero => rfl
  | succ r ih =>
    unfold rscan
    rw [getD_append_lt c [a] r (by omega)]
    by_cases hc : lo ≤ r ∧ wsp (c.getD r 0)
    · rw [if_pos hc, if_pos hc, ih (by omega)]
    · rw [if_neg hc, if_neg hc]

theorem rtrimSpec_concat_wsp (c : List Value) (a : Value) (h : wsp a = true) :
    rtrimSpec (c ++ [a]) = rtrimSpec c := by
  unfold rtrimSpec
  rw [List.reverse_append]
  simp [List.dropWhile_cons, h]

theorem rtrimSpec_concat_not (c : List Value) (a : Value) (h : wsp a = false) :
    rtrimSpec (c ++ [a]) = c ++ [a] := by
  unfold rtrimSpec
  rw [List.reverse_append]
  simp [List.dropWhile_cons, h]

theorem getD_concat_end (c : List Value) (a : Value) : (c ++ [a]).getD c.length 0 = a := by
  simp only [List.getD]
  rw [List.get?_concat_length]
  rfl

theorem rtrimFn_eq (c : List Value) : rtrimFn c = rtrimSpec c := by
  induction c using List.reverseRecOn with
  | nil => rfl
  | append_singleton c a ih =>
    unfold rtrimFn
    rw [List.length_append, List.length_singleton]
    show (c ++ [a]).take (rscan (c ++ [a]) 0 (c.length + 1)) = _
    unfold rscan
    rw [getD_concat_end]
    by_cases h : wsp a
    · rw [if_pos ⟨Nat.zero_le _, h⟩, rscan_concat c a 0 c.length (Nat.le_refl _)]
      rw [List.take_append_of_le_length (rscan_le c 0 c.length)]
      rw [show (c.take (rscan c 0 c.length)) = rtrimFn c from rfl, ih,
        rtrimSpec_concat_wsp c a h]
    · rw [if_neg (by simp [h]), rtrimSpec_concat_not c a (by simpa using h)]
      exact List.take_of_length_le (by simp)

theorem rscan_shift (t s : List Value) (r : Nat) :
    rscan (t ++ s) t.length (t.length + r) = t.length + rscan s 0 r := by
  induction r with
  | zero => simpa using rscan_self (t ++ s) t.length
  | succ r ih =>
    show rscan (t ++ s) t.length (t.length + r + 1) = _
    unfold rscan
    rw [getD_append_add t s r]
    by_cases h : wsp (s.getD r 0)
    · rw [if_pos ⟨by omega, h⟩, if_pos ⟨Nat.zero_le _, h⟩, ih]
    · rw [if_neg (fun hc => h hc.2), if_neg (fun hc => h hc.2)]
      omega

theorem trim_split (t s : List Value) :
    ((t ++ s).take (rscan (t ++ s) t.length (t.length + s.length))).drop t.length
      = rtrimFn s := by
  rw [rscan_shift, List.take_append, List.drop_left]
  rfl

theorem trimFn_eq (c : List Value) : trimFn c = trimSpec c := by
  unfold trimFn trimSpec ltrimSpec
  rw [takeWhile_wsp_append_term]
  have hsplit : c.takeWhile wsp ++ c.dropWhile wsp = c :=
    List.takeWhile_append_dropWhile wsp c
  have hlen : (c.takeWhile wsp).length + (c.dropWhile wsp).length = c.length := by
    rw [← List.length_append, hsplit]
  have key := trim_split (c.takeWhile wsp) (c.dropWhile wsp)
  rw [hsplit, hlen] at key
  rw [key]
  exact rtrimFn_eq (c.dropWhile wsp)

/-- C9 counterexample: on the content `"a\0b"` (an embedded terminator-valued
unit at position 1, legal data for this class), `ltrim()` returns the view
`"a"` — because the returned `basic_cstring_view(ptr)` is scanned only up to
the first terminator unit — not the full content with left whitespace
removed, which would be `"a\0b"` itself. -/
theorem ltrim_embedded_terminator_counterexample :
    ltrimFn [97, 0, 98] = [97] ∧ ltrimSpec [97, 0, 98] = [97, 0, 98] ∧
      ([97] : List Value) ≠ [97, 0, 98] := by
  refine ⟨by decide, by decide, by decide⟩

/-- C9 (amended): `rtrim()` and `trim()` return the view of the content with
whitespace removed from the right end resp. both ends; `ltrim()` returns the
left-trimmed view truncated at the first terminator-valued unit — hence
exactly the left-trimmed view whenever the content contains no embedded
terminator unit; and on empty or all-whitespace content all three return the
empty view. -/
theorem trim_family (c : List Value) :
    rtrimFn c = rtrimSpec c ∧
    trimFn c = trimSpec c ∧
    ltrimFn c = (ltrimSpec c).takeWhile (fun v => !(v == 0)) ∧
    ((0 : Value) ∉ c → ltrimFn c = ltrimSpec c) ∧
    ((∀ v ∈ c, wsp v = true) → ltrimFn c = [] ∧ rtrimFn c = [] ∧ trimFn c = []) := by
  refine ⟨rtrimFn_eq c, trimFn_eq c, ltrimFn_eq c, ?_, ?_⟩
  · intro h0
    rw [ltrimFn_eq c]
    apply List.takeWhile_eq_self_iff.mpr
    intro v hv
    have : v ∈ c := (List.dropWhile_sublist wsp).mem hv
    simp only [Bool.not_eq_true']
    exact (Bool.not_eq_true _).mp (by simp; exact fun h => h0 (h ▸ this))
  · intro hall
    have hl : ltrimSpec c = [] := List.dropWhile_eq_nil_iff.mpr hall
    have hr : rtrimSpec c = [] := by
      unfold rtrimSpec
      rw [List.dropWhile_eq_nil_iff.mpr (fun x hx => hall x (List.mem_reverse.mp hx))]
      rfl
    refine ⟨?_, ?_, ?_⟩
    · rw [ltrimFn_eq c, hl]; rfl
    · rw [rtrimFn_eq c, hr]
    · rw [trimFn_eq c]; unfold trimSpec; rw [hl]; rfl

/-- Witness for `trim_family` at the all-whitespace content `[32]` (a single
space, which also contains no terminator unit). -/
theorem trim_family_witness :
    (ltrimFn [32] = ltrimSpec [32]) ∧
    (ltrimFn [32] = [] ∧ rtrimFn [32] = [] ∧ trimFn [32] = []) :=
  ⟨(trim_family [32]).2.2.2.1 (by decide), (trim_family [32]).2.2.2.2 (by decide)⟩

/- ------------------------------------------------------------------ -/
/- C8: content equality, compare, hash                                -/
/- ------------------------------------------------------------------ -/

/-- `Traits::compare` as used by `basic_string_view::compare`, collapsed to
its sign: lexicographic unit-wise comparison, shorter sequence first. -/
def svCompare : List Value → List Value → Int
  | [], [] => 0
  | [], _ :: _ => -1
  | _ :: _, [] => 1
  | x :: xs, y :: ys => if x < y then -1 else if y < x then 1 else svCompare xs ys

/-- `compare(const basic_cstring &other)`: `view().compare(other.view())`. -/
def compareFn (a b : Block) : Int := svCompare (view a) (view b)

/-- Modelled from the spec: the delegated string-hashing primitive
(`std::hash` over the raw character sequence), an out-of-scope external
collaborator; modelled as a concrete 64-bit FNV-1a-style fold over the code
units.  Any function of the raw sequence serves the claim. -/
def stdHashDelegate (c : List Value) : Nat :=
  c.foldl (fun h v => ((h ^^^ v) * 1099511628211) % (2 ^ 64)) 14695981039346656037

/-- `std::hash<gto::cstring>::operator()`: the delegated string hash applied
to `str.view()`. -/
def hashFn (bl : Block) : Nat := stdHashDelegate (view bl)

theorem svCompare_self (c : List Value) : svCompare c c = 0 := by
  induction c with
  | nil => rfl
  | cons a t ih => simp [svCompare, ih]

/-- C8: two handles whose character sequences are identical (equal lengths
and equal units at every position) compare equal (`compare` returns 0, hence
`operator==` holds) and hash identically, regardless of the blocks'
reference counters or physical identity; and the hash is the delegated
string hash of the raw character sequence. -/
theorem equal_content_compare_hash (c d : List Value) (k1 k2 : Nat)
    (hlen : lengthFn (contentBlock c k1) = lengthFn (contentBlock d k2))
    (hdat : ∀ i, i < c.length → c.getD i 0 = d.getD i 0) :
    compareFn (contentBlock c k1) (contentBlock d k2) = 0 ∧
    hashFn (contentBlock c k1) = hashFn (contentBlock d k2) ∧
    hashFn (contentBlock c k1) = stdHashDelegate (view (contentBlock c k1)) := by
  have hl : c.length = d.length := hlen
  have hcd : c = d := by
    apply List.ext_getElem hl
    intro i h1 h2
    have := hdat i h1
    rwa [List.getD_eq_getElem c 0 h1, List.getD_eq_getElem d 0 h2] at this
  subst hcd
  refine ⟨?_, ?_, rfl⟩
  · unfold compareFn
    rw [view_contentBlock, view_contentBlock]
    exact svCompare_self c
  · unfold hashFn
    rw [view_contentBlock, view_contentBlock]

/-- Witness for `equal_content_compare_hash`: contents `[97, 98]` in two
physically distinct blocks with different reference counters. -/
theorem equal_content_compare_hash_witness :
    compareFn (contentBlock [97, 98] 1) (contentBlock [97, 98] 5) = 0 ∧
    hashFn (contentBlock [97, 98] 1) = hashFn (contentBlock [97, 98] 5) ∧
    hashFn (contentBlock [97, 98] 1) = stdHashDelegate (view (contentBlock [97, 98] 1)) :=
  equal_content_compare_hash [97, 98] [97, 98] 1 5 (by decide) (by decide)

/- ------------------------------------------------------------------ -/
/- State machine: heap, handles, lifecycle operations                 -/
/- ------------------------------------------------------------------ -/

/-- The heap: allocation addresses to blocks.  Address `0` is the permanent
empty singleton `m_empty`; a deallocated or never-allocated address maps to
`none`. -/
abbrev Heap := Nat → Option Block

/-- Point update of the heap. -/
def setBlk (m : Heap) (a : Nat) (v : Option Block) : Heap :=
  fun x => if x = a then v else m x

/-- `release(str)`: load the counter; a `0` counter marks a constant block
(no effect); a counter of exactly `1` means this was the last reference
(deallocate); otherwise `fetch_sub(1)`. -/
def release (m : Heap) (a : Nat) : Heap :=
  match m a with
  | none => m
  | some bl =>
    if bl.counter = 0 then m
    else if bl.counter = 1 then setBlk m a none
    else setBlk m a (some { bl with counter := bl.counter - 1 })

/-- `increment_ref_counter(str)`: `fetch_add(1)` unless the counter is `0`
(constant block).  The stored 32-bit counter wraps modulo `2 ^ 32`. -/
def increment_ref_counter (m : Heap) (a : Nat) : Heap :=
  match m a with
  | none => m
  | some bl =>
    if 0 < bl.counter then setBlk m a (some { bl with counter := (bl.counter + 1) % W })
    else m

/-- The live handles: association list of `(handle id, bound address)`,
mirroring each live `basic_cstring`'s `m_str` pointer. -/
abbrev Handles := List (Nat × Nat)

/-- Rebind one handle (assignment to its `m_str`). -/
def rebind (hs : Handles) (h b : Nat) : Handles :=
  hs.map fun p => if p.1 = h then (h, b) else p

/-- Remove a destroyed handle. -/
def removeHandle (hs : Handles) (h : Nat) : Handles :=
  hs.filter fun p => !(p.1 == h)

/-- The number of live handles bound to address `b`. -/
def cnt (hs : Handles) (b : Nat) : Nat := hs.countP fun p => p.2 == b

/-- A program state: the heap, the live handles, and the next fresh
allocation address. -/
structure State where
  blocks : Heap
  handles : Handles
  next : Nat

/-- Default construction / construction from a null or empty buffer: bind a
fresh handle to the empty singleton, touching no counter. -/
def bindEmptyFn (s : State) (h : Nat) : State :=
  { s with handles := (h, 0) :: s.handles }

/-- `basic_cstring(str, len)` with `str != nullptr`, `0 < len ≤ max_size()`:
allocate a fresh block with counter `1` and bind the new handle to it. -/
def ctorNewFn (s : State) (h : Nat) (buf : List Value) (len : Nat) : State :=
  { blocks := setBlk s.blocks s.next (some (mkBlock buf len)),
    handles := (h, s.next) :: s.handles,
    next := s.next + 1 }

/-- Copy construction: bind to the source's block and
`increment_ref_counter`. -/
def copyCtorFn (s : State) (h src : Nat) : State :=
  match s.handles.lookup src with
  | some b =>
    { s with blocks := increment_ref_counter s.blocks b, handles := (h, b) :: s.handles }
  | none => s

/-- Move construction: `std::exchange(other.m_str, m_empty.str)` — the new
handle takes the source's block, the source is rebound to the singleton.
No counter change. -/
def moveCtorFn (s : State) (h src : Nat) : State :=
  match s.handles.lookup src with
  | some b => { s with handles := (h, b) :: rebind s.handles src 0 }
  | none => s

/-- Copy assignment: if `m_str == other.m_str` return unchanged; otherwise
release the old block, bind to the source's block, increment its counter. -/
def copyAssignFn (s : State) (dst src : Nat) : State :=
  match s.handles.lookup dst, s.handles.lookup src with
  | some bd, some bs =>
    if bd = bs then s
    else
      { s with blocks := increment_ref_counter (release s.blocks bd) bs,
               handles := rebind s.handles dst bs }
  | _, _ => s

/-- `swap` (member and the free overload, which delegates to the member):
`std::swap(m_str, other.m_str)`. -/
def swapFn (s : State) (h1 h2 : Nat) : State :=
  match s.handles.lookup h1, s.handles.lookup h2 with
  | some b1, some b2 => { s with handles := rebind (rebind s.handles h1 b2) h2 b1 }
  | _, _ => s

/-- Move assignment: `std::swap(m_str, other.m_str)` — identical to `swap`. -/
def moveAssignFn (s : State) (dst src : Nat) : State := swapFn s dst src

/-- Destruction: `release(m_str)` and remove the handle. -/
def destroyFn (s : State) (h : Nat) : State :=
  match s.handles.lookup h with
  | some b =>
    { s with blocks := release s.blocks b, handles := removeHandle s.handles h }
  | none => s

/-- The initial state: only the permanent empty singleton exists. -/
def initState : State :=
  { blocks := fun a => if a = 0 then some emptyBlock else none,
    handles := [],
    next := 1 }

/-- One lifecycle operation of `basic_cstring`.  Handle-id hypotheses say
the operated-on handles are live (and a created handle id is fresh). -/
inductive Step : State → State → Prop where
  | bindEmpty {s : State} (h : Nat) (hf : s.handles.lookup h = none) :
      Step s (bindEmptyFn s h)
  | ctorNew {s : State} (h : Nat) (buf : List Value) (len : Nat)
      (hf : s.handles.lookup h = none) (h0 : 0 < len) (hm : len ≤ max_size)
      (hb : len ≤ buf.length) : Step s (ctorNewFn s h buf len)
  | copyCtor {s : State} (h src : Nat) (hf : s.handles.lookup h = none)
      (hl : s.handles.lookup src ≠ none) : Step s (copyCtorFn s h src)
  | moveCtor {s : State} (h src : Nat) (hf : s.handles.lookup h = none)
      (hl : s.handles.lookup src ≠ none) : Step s (moveCtorFn s h src)
  | copyAssign {s : State} (dst src : Nat) (hd : s.handles.lookup dst ≠ none)
      (hl : s.handles.lookup src ≠ none) : Step s (copyAssignFn s dst src)
  | moveAssign {s : State} (dst src : Nat) (hd : s.handles.lookup dst ≠ none)
      (hl : s.handles.lookup src ≠ none) : Step s (moveAssignFn s dst src)
  | swapOp {s : State} (h1 h2 : Nat) (he1 : s.handles.lookup h1 ≠ none)
      (he2 : s.handles.lookup h2 ≠ none) : Step s (swapFn s h1 h2)
  | destroy {s : State} (h : Nat) (he : s.handles.lookup h ≠ none) :
      Step s (destroyFn s h)

/-- States reachable by any sequence of operations. -/
inductive Reachable : State → Prop where
  | init : Reachable initState
  | step {s s' : State} : Reachable s → Step s s' → Reachable s'

/-- States reachable by sequences during which no allocation ever has
`2 ^ 32` or more simultaneously-bound handles (so the 32-bit reference
counter never wraps). -/
inductive ReachableB : State → Prop where
  | init : ReachableB initState
  | step {s s' : State} : ReachableB s → Step s s' →
      (∀ b, cnt s'.handles b < W) → ReachableB s'

/-- The reference-counting invariant. -/
structure Inv (s : State) : Prop where
  sing : s.blocks 0 = some emptyBlock
  nodup : (s.handles.map Prod.fst).Nodup
  live : ∀ p ∈ s.handles, s.blocks p.2 ≠ none
  counterEq : ∀ b bl, b ≠ 0 → s.blocks b = some bl → bl.counter = cnt s.handles b
  hasHandle : ∀ b bl, b ≠ 0 → s.blocks b = some bl → 1 ≤ cnt s.handles b
  freshB : ∀ b, s.next ≤ b → s.blocks b = none
  nextPos : 0 < s.next

/- ------------------------------------------------------------------ -/
/- Association-list lemmas for handles                                -/
/- ------------------------------------------------------------------ -/

theorem lookup_cons_self {a v : Nat} {t : Handles} : ((a, v) :: t).lookup a = some v := by
  simp [List.lookup]

theorem lookup_cons_ne {k a v : Nat} {t : Handles} (h : k ≠ a) :
    ((a, v) :: t).lookup k = t.lookup k := by
  have hb : (k == a) = false := by simpa using h
  simp [List.lookup, hb]

theorem lookup_ne_of_none {hs : Handles} {k : Nat} (h : hs.lookup k = none) :
    ∀ p ∈ hs, p.1 ≠ k := by
  induction hs with
  | nil => intro p hp; cases hp
  | cons q t ih =>
    obtain ⟨a, v⟩ := q
    intro p hp
    by_cases hk : k = a
    · subst hk; rw [lookup_cons_self] at h; cases h
    · rw [lookup_cons_ne hk] at h
      rcases List.mem_cons.mp hp with hp | hp
      · subst hp; exact fun hc => hk hc.symm
      · exact ih h p hp

theorem lookup_none_of_not_mem {hs : Handles} {k : Nat} (h : ∀ p ∈ hs, p.1 ≠ k) :
    hs.lookup k = none := by
  induction hs with
  | nil => rfl
  | cons q t ih =>
    obtain ⟨a, v⟩ := q
    have ha : a ≠ k := h (a, v) (List.mem_cons_self _ _)
    rw [lookup_cons_ne fun hc => ha hc.symm]
    exact ih fun p hp => h p (List.mem_cons_of_mem _ hp)

theorem lookup_some_mem {hs : Handles} {k b : Nat} (h : hs.lookup k = some b) :
    (k, b) ∈ hs := by
  induction hs with
  | nil => cases h
  | cons q t ih =>
    obtain ⟨a, v⟩ := q
    by_cases hk : k = a
    · subst hk
      rw [lookup_cons_self] at h
      cases h
      exact List.mem_cons_self _ _
    · rw [lookup_cons_ne hk] at h
      exact List.mem_cons_of_mem _ (ih h)

theorem rebind_cons (q : Nat × Nat) (t : Handles) (h b : Nat) :
    rebind (q :: t) h b = (if q.1 = h then (h, b) else q) :: rebind t h b := rfl

theorem rebind_keys (hs : Handles) (h b : Nat) :
    (rebind hs h b).map Prod.fst = hs.map Prod.fst := by
  induction hs with
  | nil => rfl
  | cons q t ih =>
    rw [rebind_cons, List.map_cons, List.map_cons, ih]
    by_cases hq : q.1 = h
    · rw [if_pos hq]; simp [hq]
    · rw [if_neg hq]

theorem rebind_of_none {hs : Handles} {h : Nat} (hlk : hs.lookup h = none) (b : Nat) :
    rebind hs h b = hs := by
  induction hs with
  | nil => rfl
  | cons q t ih =>
    obtain ⟨a, v⟩ := q
    by_cases hk : h = a
    · subst hk; rw [lookup_cons_self] at hlk; cases hlk
    · rw [lookup_cons_ne hk] at hlk
      rw [rebind_cons, if_neg (by simpa using fun hc : a = h => hk hc.symm)]
      exact congrArg _ (ih hlk)

theorem lookup_rebind_self {hs : Handles} {h b0 : Nat} (hlk : hs.lookup h = some b0)
    (b : Nat) : (rebind hs h b).lookup h = some b := by
  induction hs with
  | nil => cases hlk
  | cons q t ih =>
    obtain ⟨a, v⟩ := q
    by_cases hk : h = a
    · subst hk
      rw [rebind_cons, if_pos rfl, lookup_cons_self]
    · rw [lookup_cons_ne hk] at hlk
      rw [rebind_cons, if_neg (by simpa using fun hc : a = h => hk hc.symm)]
      rw [lookup_cons_ne hk]
      exact ih hlk

theorem lookup_rebind_other {hs : Handles} {h k : Nat} (hne : k ≠ h) (b : Nat) :
    (rebind hs h b).lookup k = hs.lookup k := by
  induction hs with
  | nil => rfl
  | cons q t ih =>
    obtain ⟨a, v⟩ := q
    by_cases hq : a = h
    · rw [rebind_cons, if_pos (by simpa using hq), lookup_cons_ne hne, hq,
        lookup_cons_ne hne]
      exact ih
    · rw [rebind_cons, if_neg (by simpa using hq)]
      by_cases hk : k = a
      · subst hk; rw [lookup_cons_self, lookup_cons_self]
      · rw [lookup_cons_ne hk, lookup_cons_ne hk]
        exact ih

theorem mem_rebind {hs : Handles} {h b : Nat} {p : Nat × Nat}
    (hp : p ∈ rebind hs h b) : p = (h, b) ∨ p ∈ hs := by
  simp only [rebind, List.mem_map] at hp
  obtain ⟨q, hq, he⟩ := hp
  by_cases hc : q.1 = h
  · rw [if_pos hc] at he; exact Or.inl he.symm
  · rw [if_neg hc] at he; exact Or.inr (he ▸ hq)

theorem cnt_cons (q : Nat × Nat) (hs : Handles) (b : Nat) :
    cnt (q :: hs) b = cnt hs b + (if q.2 = b then 1 else 0) := by
  simp only [cnt, List.countP_cons]
  by_cases h : q.2 = b
  · rw [if_pos h, if_pos (by simpa using h)]
  · rw [if_neg h, if_neg (by simpa using h)]

theorem cnt_zero_iff (hs : Handles) (b : Nat) :
    cnt hs b = 0 ↔ ∀ p ∈ hs, p.2 ≠ b := by
  simp only [cnt, List.countP_eq_zero]
  constructor
  · intro h p hp; simpa using h p hp
  · intro h p hp; simpa using h p hp

theorem cnt_pos_of_mem {hs : Handles} {k b : Nat} (h : (k, b) ∈ hs) :
    1 ≤ cnt hs b := by
  have : 0 < cnt hs b := by
    simp only [cnt]
    exact List.countP_pos.mpr ⟨(k, b), h, by simp⟩
  omega

theorem not_mem_keys_of_nodup_head {a : Nat} {v : Nat} {t : Handles}
    (hnd : ((a, v) :: t).map Prod.fst |>.Nodup) : t.lookup a = none := by
  simp only [List.map_cons, List.nodup_cons] at hnd
  exact lookup_none_of_not_mem fun p hp hc =>
    hnd.1 (hc ▸ List.mem_map_of_mem Prod.fst hp)

theorem cnt_rebind {hs : Handles} {h b0 : Nat} (hnd : (hs.map Prod.fst).Nodup)
    (hlk : hs.lookup h = some b0) (b x : Nat) :
    cnt (rebind hs h b) x + (if b0 = x then 1 else 0)
      = cnt hs x + (if b = x then 1 else 0) := by
  induction hs with
  | nil => cases hlk
  | cons q t ih =>
    obtain ⟨a, v⟩ := q
    by_cases hk : h = a
    · subst hk
      rw [lookup_cons_self] at hlk
      cases hlk
      rw [rebind_cons, if_pos rfl,
        rebind_of_none (not_mem_keys_of_nodup_head hnd) b, cnt_cons, cnt_cons]
      dsimp only
      omega
    · rw [lookup_cons_ne hk] at hlk
      simp only [List.map_cons, List.nodup_cons] at hnd
      rw [rebind_cons, if_neg (by simpa using fun hc : a = h => hk hc.symm),
        cnt_cons, cnt_cons]
      have := ih hnd.2 hlk
      omega

theorem rebind_same {hs : Handles} {h b : Nat} (hnd : (hs.map Prod.fst).Nodup)
    (hlk : hs.lookup h = some b) : rebind hs h b = hs := by
  induction hs with
  | nil => rfl
  | cons q t ih =>
    obtain ⟨a, v⟩ := q
    by_cases hk : h = a
    · subst hk
      rw [lookup_cons_self] at hlk
      cases hlk
      rw [rebind_cons, if_pos rfl,
        rebind_of_none (not_mem_keys_of_nodup_head hnd) b]
    · rw [lookup_cons_ne hk] at hlk
      simp only [List.map_cons, List.nodup_cons] at hnd
      rw [rebind_cons, if_neg (by simpa using fun hc : a = h => hk hc.symm)]
      exact congrArg _ (ih hnd.2 hlk)

theorem mem_remove {hs : Handles} {h : Nat} {p : Nat × Nat}
    (hp : p ∈ removeHandle hs h) : p ∈ hs :=
  List.mem_of_mem_filter hp

theorem remove_keys_sublist (hs : Handles) (h : Nat) :
    ((removeHandle hs h).map Prod.fst).Sublist (hs.map Prod.fst) :=
  (List.filter_sublist hs).map Prod.fst

theorem remove_cons (q : Nat × Nat) (t : Handles) (h : Nat) :
    removeHandle (q :: t) h
      = if q.1 = h then removeHandle t h else q :: removeHandle t h := by
  simp only [removeHandle, List.filter_cons]
  by_cases hq : q.1 = h
  · rw [if_neg (by simp [hq]), if_pos hq]
  · rw [if_pos (by simp [hq]), if_neg hq]

theorem cnt_remove {hs : Handles} {h b0 : Nat} (hnd : (hs.map Prod.fst).Nodup)
    (hlk : hs.lookup h = some b0) (x : Nat) :
    cnt (removeHandle hs h) x + (if b0 = x then 1 else 0) = cnt hs x := by
  induction hs with
  | nil => cases hlk
  | cons q t ih =>
    obtain ⟨a, v⟩ := q
    by_cases hk : h = a
    · subst hk
      rw [lookup_cons_self] at hlk
      cases hlk
      have hrt : removeHandle t h = t := by
        apply List.filter_eq_self.mpr
        intro p hp
        have := lookup_ne_of_none (not_mem_keys_of_nodup_head hnd) p hp
        simpa using this
      rw [remove_cons, if_pos rfl, hrt, cnt_cons]
    · rw [lookup_cons_ne hk] at hlk
      simp only [List.map_cons, List.nodup_cons] at hnd
      rw [remove_cons, if_neg (by simpa using fun hc : a = h => hk hc.symm),
        cnt_cons, cnt_cons]
      have := ih hnd.2 hlk
      omega

/- ------------------------------------------------------------------ -/
/- C3, C10, C4: assignment, swap, move                                -/
/- ------------------------------------------------------------------ -/

/-- C3: copy assignment from a handle bound to the same block — including
literal self-assignment `a = a` — is a complete no-op: the early return on
`m_str == other.m_str` leaves the whole state (bound block, reference
counter, heap, every binding) unchanged, with no release, no increment and
no deallocation. -/
theorem same_block_assign_noop (s : State) (dst src b : Nat)
    (hd : s.handles.lookup dst = some b) (hl : s.handles.lookup src = some b) :
    copyAssignFn s dst src = s := by
  simp [copyAssignFn, hd, hl]

/-- A concrete two-handle state: handle `0` bound to block `1` (content
`[120]`), handle `1` bound to block `2` (content `[121]`); reached from
`initState` by two constructions. -/
def exState : State := ctorNewFn (ctorNewFn initState 0 [120] 1) 1 [121] 1

theorem exState_reachable : Reachable exState :=
  Reachable.step
    (Reachable.step Reachable.init
      (Step.ctorNew 0 [120] 1 rfl (by decide) (by decide) (by decide)))
    (Step.ctorNew 1 [121] 1 (by decide) (by decide) (by decide) (by decide))

/-- Witness for `same_block_assign_noop`: self-assignment `a = a` on
handle `0` of `exState`. -/
theorem same_block_assign_noop_witness : copyAssignFn exState 0 0 = exState :=
  same_block_assign_noop exState 0 0 1 (by decide) (by decide)

theorem swap_core (s : State) (h1 h2 b1 b2 : Nat)
    (hnd : (s.handles.map Prod.fst).Nodup)
    (hl1 : s.handles.lookup h1 = some b1) (hl2 : s.handles.lookup h2 = some b2) :
    (swapFn s h1 h2).blocks = s.blocks ∧
    (swapFn s h1 h2).handles.lookup h1 = some b2 ∧
    (swapFn s h1 h2).handles.lookup h2 = some b1 := by
  refine ⟨?_, ?_, ?_⟩
  · simp [swapFn, hl1, hl2]
  · by_cases hc : h2 = h1
    · subst hc
      have hb : b1 = b2 := by rw [hl1] at hl2; exact Option.some.inj hl2
      subst hb
      simp only [swapFn, hl1]
      rw [rebind_same hnd hl1, rebind_same hnd hl1]
      exact hl1
    · simp only [swapFn, hl1, hl2]
      rw [lookup_rebind_other (fun h12 => hc h12.symm) b1,
        lookup_rebind_self hl1 b2]
  · by_cases hc : h2 = h1
    · subst hc
      have hb : b1 = b2 := by rw [hl1] at hl2; exact Option.some.inj hl2
      subst hb
      simp only [swapFn, hl1]
      rw [rebind_same hnd hl1, rebind_same hnd hl1]
      exact hl1
    · simp only [swapFn, hl1, hl2]
      have hinner : (rebind s.handles h1 b2).lookup h2 = some b2 :=
        (lookup_rebind_other hc b2).trans hl2
      rw [lookup_rebind_self hinner b1]

/-- C10: swapping two handles (member `swap`, to which the free `swap`
overload delegates) exchanges which block each handle is bound to —
afterwards each handle is bound to the other's former block, and so reads
its former content — while the heap (every block's counter, length and
data) is unchanged. -/
theorem swap_exchanges_bindings (s : State) (h1 h2 b1 b2 : Nat)
    (hnd : (s.handles.map Prod.fst).Nodup)
    (hl1 : s.handles.lookup h1 = some b1) (hl2 : s.handles.lookup h2 = some b2) :
    (swapFn s h1 h2).blocks = s.blocks ∧
    (swapFn s h1 h2).handles.lookup h1 = some b2 ∧
    (swapFn s h1 h2).handles.lookup h2 = some b1 :=
  swap_core s h1 h2 b1 b2 hnd hl1 hl2

/-- Witness for `swap_exchanges_bindings` on `exState`. -/
theorem swap_exchanges_bindings_witness :
    (swapFn exState 0 1).blocks = exState.blocks ∧
    (swapFn exState 0 1).handles.lookup 0 = some 2 ∧
    (swapFn exState 0 1).handles.lookup 1 = some 1 :=
  swap_exchanges_bindings exState 0 1 1 2 (by decide) (by decide) (by decide)

/-- C4 counterexample: in the reachable state `exState`, move-assigning
`a = std::move(b)` (handle `0` ← handle `1`) leaves the moved-from handle
`1` bound to block `1` — the destination's former block, not the permanent
empty singleton (address `0`) — and it reads the non-empty content `[120]`,
because move assignment swaps the two pointers. -/
theorem moved_from_not_empty_counterexample :
    Reachable (moveAssignFn exState 0 1) ∧
    (moveAssignFn exState 0 1).handles.lookup 1 = some 1 ∧
    (1 : Nat) ≠ 0 ∧
    (moveAssignFn exState 0 1).blocks 1 = some (mkBlock [120] 1) ∧
    lengthFn (mkBlock [120] 1) = 1 ∧
    view (mkBlock [120] 1) = [120] := by
  refine ⟨Reachable.step exState_reachable
    (Step.moveAssign 0 1 (by decide) (by decide)), ?_, ?_, ?_, ?_, ?_⟩
  · decide
  · decide
  · decide
  · decide
  · decide

/-- C4 (amended): a moved-from handle always remains a valid, readable
handle.  After move construction it is bound to the permanent empty
singleton (`std::exchange(other.m_str, m_empty.str)`) and reads as the
empty string.  After move assignment the two handles exchange bindings
(`std::swap`), so the moved-from handle is bound to the destination's
former block — the empty singleton only when the destination was empty —
while the heap is unchanged. -/
theorem moved_from_semantics (s : State) (h src dst bd bs : Nat) :
    (s.handles.lookup src = some bs → s.handles.lookup h = none →
      s.blocks 0 = some emptyBlock →
      (moveCtorFn s h src).handles.lookup src = some 0 ∧
      (moveCtorFn s h src).handles.lookup h = some bs ∧
      (moveCtorFn s h src).blocks 0 = some emptyBlock ∧
      lengthFn emptyBlock = 0) ∧
    ((s.handles.map Prod.fst).Nodup →
      s.handles.lookup dst = some bd → s.handles.lookup src = some bs →
      (moveAssignFn s dst src).handles.lookup src = some bd ∧
      (moveAssignFn s dst src).handles.lookup dst = some bs ∧
      (moveAssignFn s dst src).blocks = s.blocks) := by
  constructor
  · intro hsrc hfresh hsing
    have hne : src ≠ h := fun hc => by rw [hc, hfresh] at hsrc; cases hsrc
    simp only [moveCtorFn, hsrc]
    refine ⟨?_, ?_, hsing, rfl⟩
    · rw [lookup_cons_ne hne, lookup_rebind_self hsrc 0]
    · rw [lookup_cons_self]
  · intro hnd hdst hsrc
    obtain ⟨hb, hd1, hd2⟩ := swap_core s dst src bd bs hnd hdst hsrc
    exact ⟨hd2, hd1, hb⟩

/-- Witness for `moved_from_semantics`: move construction from handle `0`
of `exState` into fresh handle `2`, and move assignment on `exState`. -/
theorem moved_from_semantics_witness :
    ((moveCtorFn exState 2 0).handles.lookup 0 = some 0 ∧
      (moveCtorFn exState 2 0).handles.lookup 2 = some 1 ∧
      (moveCtorFn exState 2 0).blocks 0 = some emptyBlock ∧
      lengthFn emptyBlock = 0) ∧
    ((moveAssignFn exState 0 1).handles.lookup 1 = some 1 ∧
      (moveAssignFn exState 0 1).handles.lookup 0 = some 2 ∧
      (moveAssignFn exState 0 1).blocks = exState.blocks) :=
  ⟨(moved_from_semantics exState 2 0 1 1 1).1 (by decide) (by decide) (by decide),
   (moved_from_semantics exState 2 1 0 1 2).2 (by decide) (by decide) (by decide)⟩

/- ------------------------------------------------------------------ -/
/- Heap lemmas                                                        -/
/- ------------------------------------------------------------------ -/

theorem setBlk_at (m : Heap) (a : Nat) (v : Option Block) : setBlk m a v a = v := by
  simp [setBlk]

theorem setBlk_other (m : Heap) (a : Nat) (v : Option Block) {x : Nat} (hx : x ≠ a) :
    setBlk m a v x = m x := by
  simp [setBlk, hx]

theorem release_none {m : Heap} {a : Nat} (hma : m a = none) : release m a = m := by
  unfold release; rw [hma]

theorem release_zero {m : Heap} {a : Nat} {bl : Block} (hma : m a = some bl)
    (h0 : bl.counter = 0) : release m a = m := by
  simp only [release, hma]
  rw [if_pos h0]

theorem release_one {m : Heap} {a : Nat} {bl : Block} (hma : m a = some bl)
    (h1 : bl.counter = 1) : release m a = setBlk m a none := by
  simp only [release, hma]
  rw [if_neg (by omega), if_pos h1]

theorem release_many {m : Heap} {a : Nat} {bl : Block} (hma : m a = some bl)
    (h2 : 2 ≤ bl.counter) :
    release m a = setBlk m a (some { bl with counter := bl.counter - 1 }) := by
  simp only [release, hma]
  rw [if_neg (by omega), if_neg (by omega)]

theorem release_other {m : Heap} (a : Nat) {x : Nat} (hx : x ≠ a) :
    release m a x = m x := by
  cases hma : m a with
  | none => rw [release_none hma]
  | some bl =>
    by_cases h0 : bl.counter = 0
    · rw [release_zero hma h0]
    · by_cases h1 : bl.counter = 1
      · rw [release_one hma h1]; exact setBlk_other m a none hx
      · rw [release_many hma (by omega)]; exact setBlk_other m a _ hx

theorem incr_none {m : Heap} {a : Nat} (hma : m a = none) :
    increment_ref_counter m a = m := by
  unfold increment_ref_counter; rw [hma]

theorem incr_zero {m : Heap} {a : Nat} {bl : Block} (hma : m a = some bl)
    (h0 : bl.counter = 0) : increment_ref_counter m a = m := by
  simp only [increment_ref_counter, hma]
  rw [if_neg (by omega)]

theorem incr_pos {m : Heap} {a : Nat} {bl : Block} (hma : m a = some bl)
    (hp : 0 < bl.counter) :
    increment_ref_counter m a
      = setBlk m a (some { bl with counter := (bl.counter + 1) % W }) := by
  simp only [increment_ref_counter, hma]
  rw [if_pos hp]

theorem incr_other {m : Heap} (a : Nat) {x : Nat} (hx : x ≠ a) :
    increment_ref_counter m a x = m x := by
  cases hma : m a with
  | none => rw [incr_none hma]
  | some bl =>
    by_cases hp : 0 < bl.counter
    · rw [incr_pos hma hp]; exact setBlk_other m a _ hx
    · rw [incr_zero hma (by omega)]

theorem incr_sing {m : Heap} (a : Nat) (hsing : m 0 = some emptyBlock) :
    increment_ref_counter m a 0 = some emptyBlock := by
  by_cases ha : (0 : Nat) = a
  · subst ha
    rw [incr_zero hsing rfl]
    exact hsing
  · rw [incr_other a ha]; exact hsing

theorem release_sing {m : Heap} (a : Nat) (hsing : m 0 = some emptyBlock) :
    release m a 0 = some emptyBlock := by
  by_cases ha : (0 : Nat) = a
  · subst ha
    rw [release_zero hsing rfl]
    exact hsing
  · rw [release_other a ha]; exact hsing

/- ------------------------------------------------------------------ -/
/- Invariant preservation                                             -/
/- ------------------------------------------------------------------ -/

theorem keys_nodup_cons {hs : Handles} {h : Nat} (b : Nat)
    (hnd : (hs.map Prod.fst).Nodup) (hf : hs.lookup h = none) :
    (((h, b) :: hs).map Prod.fst).Nodup := by
  rw [List.map_cons]
  refine List.nodup_cons.mpr ⟨?_, hnd⟩
  intro hmem
  obtain ⟨p, hp, hpe⟩ := List.mem_map.mp hmem
  exact lookup_ne_of_none hf p hp hpe

theorem cnt_unalloc {s : State} (hI : Inv s) {b : Nat} (hb : s.blocks b = none) :
    cnt s.handles b = 0 :=
  (cnt_zero_iff _ _).mpr fun p hp hpb => (hI.live p hp) (hpb ▸ hb)

theorem inv_bindEmpty {s : State} (hI : Inv s) {h : Nat}
    (hf : s.handles.lookup h = none) : Inv (bindEmptyFn s h) := by
  unfold bindEmptyFn
  constructor
  · exact hI.sing
  · exact keys_nodup_cons 0 hI.nodup hf
  · intro p hp
    rcases List.mem_cons.mp hp with hp | hp
    · subst hp
      dsimp only
      rw [hI.sing]
      exact fun hc => by cases hc
    · exact hI.live p hp
  · intro b bl hb0 hbl
    rw [cnt_cons]
    dsimp only
    rw [if_neg fun hc => hb0 hc.symm]
    exact hI.counterEq b bl hb0 hbl
  · intro b bl hb0 hbl
    rw [cnt_cons]
    dsimp only
    rw [if_neg fun hc => hb0 hc.symm]
    have := hI.hasHandle b bl hb0 hbl
    omega
  · exact hI.freshB
  · exact hI.nextPos

theorem inv_ctorNew {s : State} (hI : Inv s) {h : Nat} (buf : List Value) (len : Nat)
    (hf : s.handles.lookup h = none) : Inv (ctorNewFn s h buf len) := by
  have hnone : s.blocks s.next = none := hI.freshB s.next (Nat.le_refl _)
  have hcnt0 : cnt s.handles s.next = 0 := cnt_unalloc hI hnone
  have hn0 : s.next ≠ 0 := by have := hI.nextPos; omega
  unfold ctorNewFn
  constructor
  · dsimp only
    rw [setBlk_other s.blocks s.next _ fun hc => hn0 hc.symm]
    exact hI.sing
  · exact keys_nodup_cons s.next hI.nodup hf
  · intro p hp
    dsimp only at hp ⊢
    rcases List.mem_cons.mp hp with hp | hp
    · subst hp
      dsimp only
      rw [setBlk_at]
      exact fun hc => by cases hc
    · have hlive := hI.live p hp
      have hpne : p.2 ≠ s.next := fun hc => hlive (hc ▸ hnone)
      rw [setBlk_other s.blocks s.next _ hpne]
      exact hlive
  · intro b bl hb0 hbl
    dsimp only at hbl ⊢
    rw [cnt_cons]
    dsimp only
    by_cases hbn : b = s.next
    · subst hbn
      rw [setBlk_at] at hbl
      cases hbl
      rw [if_pos rfl, hcnt0]
      rfl
    · rw [setBlk_other s.blocks s.next _ hbn] at hbl
      rw [if_neg fun hc => hbn hc.symm]
      exact hI.counterEq b bl hb0 hbl
  · intro b bl hb0 hbl
    dsimp only at hbl ⊢
    rw [cnt_cons]
    dsimp only
    by_cases hbn : b = s.next
    · subst hbn
      rw [if_pos rfl]
      omega
    · rw [setBlk_other s.blocks s.next _ hbn] at hbl
      rw [if_neg fun hc => hbn hc.symm]
      have := hI.hasHandle b bl hb0 hbl
      omega
  · intro b hb
    dsimp only at hb ⊢
    have : b ≠ s.next := by omega
    rw [setBlk_other s.blocks s.next _ this]
    exact hI.freshB b (by omega)
  · dsimp only
    have := hI.nextPos
    omega

theorem inv_copyCtor {s : State} (hI : Inv s) {h src : Nat}
    (hf : s.handles.lookup h = none)
    (hcap : ∀ b, cnt (copyCtorFn s h src).handles b < W) :
    Inv (copyCtorFn s h src) := by
  cases hsrc : s.handles.lookup src with
  | none => simpa only [copyCtorFn, hsrc] using hI
  | some b =>
    have hmem : (src, b) ∈ s.handles := lookup_some_mem hsrc
    have hlive : s.blocks b ≠ none := hI.live _ hmem
    obtain ⟨blb, hblb⟩ : ∃ bl, s.blocks b = some bl := by
      cases hsb : s.blocks b with
      | none => exact absurd hsb hlive
      | some bl => exact ⟨bl, rfl⟩
    by_cases hb0 : b = 0
    · subst hb0
      rw [hI.sing] at hblb
      cases hblb
      have heq : copyCtorFn s h src = bindEmptyFn s h := by
        simp only [copyCtorFn, hsrc, bindEmptyFn]
        rw [incr_zero hI.sing rfl]
      rw [heq]
      exact inv_bindEmpty hI hf
    · have hc1 : blb.counter = cnt s.handles b := hI.counterEq b blb hb0 hblb
      have hcge : 1 ≤ cnt s.handles b := hI.hasHandle b blb hb0 hblb
      have hincr := incr_pos hblb (by omega)
      have hcap' := hcap b
      simp only [copyCtorFn, hsrc] at hcap' ⊢
      rw [cnt_cons] at hcap'
      dsimp only at hcap'
      rw [if_pos rfl] at hcap'
      constructor
      · dsimp only
        rw [hincr, setBlk_other s.blocks b _ fun hcx => hb0 hcx.symm]
        exact hI.sing
      · exact keys_nodup_cons b hI.nodup hf
      · intro p hp
        dsimp only at hp ⊢
        rw [hincr]
        rcases List.mem_cons.mp hp with hp | hp
        · subst hp
          dsimp only
          rw [setBlk_at]
          exact fun hcx => by cases hcx
        · by_cases hpb : p.2 = b
          · rw [hpb, setBlk_at]
            exact fun hcx => by cases hcx
          · rw [setBlk_other s.blocks b _ hpb]
            exact hI.live p hp
      · intro b' bl' hb'0 hbl'
        dsimp only at hbl' ⊢
        rw [hincr] at hbl'
        rw [cnt_cons]
        dsimp only
        by_cases hb'b : b' = b
        · subst hb'b
          rw [setBlk_at] at hbl'
          cases hbl'
          dsimp only
          rw [if_pos rfl]
          rw [Nat.mod_eq_of_lt (by omega)]
          omega
        · rw [setBlk_other s.blocks b _ hb'b] at hbl'
          rw [if_neg fun hcx => hb'b hcx.symm]
          exact hI.counterEq b' bl' hb'0 hbl'
      · intro b' bl' hb'0 hbl'
        dsimp only at hbl' ⊢
        rw [cnt_cons]
        dsimp only
        by_cases hb'b : b' = b
        · subst hb'b
          rw [if_pos rfl]
          omega
        · rw [hincr, setBlk_other s.blocks b _ hb'b] at hbl'
          rw [if_neg fun hcx => hb'b hcx.symm]
          exact hI.hasHandle b' bl' hb'0 hbl'
      · intro x hx
        dsimp only at hx ⊢
        have hxb : x ≠ b := by
          intro hcx
          exact hlive (hcx ▸ hI.freshB x hx)
        rw [hincr, setBlk_other s.blocks b _ hxb]
        exact hI.freshB x hx
      · exact hI.nextPos

theorem inv_moveCtor {s : State} (hI : Inv s) {h src : Nat}
    (hf : s.handles.lookup h = none) : Inv (moveCtorFn s h src) := by
  cases hsrc : s.handles.lookup src with
  | none => simpa only [moveCtorFn, hsrc] using hI
  | some b =>
    have hmem : (src, b) ∈ s.handles := lookup_some_mem hsrc
    have hne : h ≠ src := fun hcx => by rw [hcx, hsrc] at hf; cases hf
    have hcnt : ∀ x, cnt ((h, b) :: rebind s.handles src 0) x = cnt s.handles x
        + (if 0 = x then 1 else 0) := by
      intro x
      rw [cnt_cons]
      dsimp only
      have := cnt_rebind hI.nodup hsrc 0 x
      omega
    simp only [moveCtorFn, hsrc]
    constructor
    · exact hI.sing
    · dsimp only
      rw [show ((h, b) :: rebind s.handles src 0).map Prod.fst
          = ((h, b) :: s.handles).map Prod.fst by
        rw [List.map_cons, List.map_cons, rebind_keys]]
      exact keys_nodup_cons b hI.nodup hf
    · intro p hp
      dsimp only at hp ⊢
      rcases List.mem_cons.mp hp with hp | hp
      · subst hp
        exact hI.live (src, b) hmem
      · rcases mem_rebind hp with hp | hp
        · subst hp
          dsimp only
          rw [hI.sing]
          exact fun hcx => by cases hcx
        · exact hI.live p hp
    · intro b' bl' hb'0 hbl'
      dsimp only at hbl' ⊢
      rw [hcnt b', if_neg fun hcx => hb'0 hcx.symm]
      exact hI.counterEq b' bl' hb'0 hbl'
    · intro b' bl' hb'0 hbl'
      dsimp only at hbl' ⊢
      rw [hcnt b', if_neg fun hcx => hb'0 hcx.symm]
      exact hI.hasHandle b' bl' hb'0 hbl'
    · exact hI.freshB
    · exact hI.nextPos

theorem cnt_pos_of_mem2 {hs : Handles} {p : Nat × Nat} (h : p ∈ hs) :
    1 ≤ cnt hs p.2 := by
  have : 0 < cnt hs p.2 := by
    simp only [cnt]
    exact List.countP_pos.mpr ⟨p, h, by simp⟩
  omega

theorem inv_swap {s : State} (hI : Inv s) (h1 h2 : Nat) : Inv (swapFn s h1 h2) := by
  cases hl1 : s.handles.lookup h1 with
  | none => simpa only [swapFn, hl1] using hI
  | some b1 =>
    cases hl2 : s.handles.lookup h2 with
    | none => simpa only [swapFn, hl1, hl2] using hI
    | some b2 =>
      by_cases hc : h2 = h1
      · subst hc
        have hb : b1 = b2 := by rw [hl1] at hl2; exact Option.some.inj hl2
        subst hb
        have heq : swapFn s h2 h2 = s := by
          simp only [swapFn, hl1]
          rw [rebind_same hI.nodup hl1, rebind_same hI.nodup hl1]
        rw [heq]
        exact hI
      · have hnd' : ((rebind s.handles h1 b2).map Prod.fst).Nodup := by
          rw [rebind_keys]; exact hI.nodup
        have hl2' : (rebind s.handles h1 b2).lookup h2 = some b2 :=
          (lookup_rebind_other hc b2).trans hl2
        have hcnt : ∀ x, cnt (rebind (rebind s.handles h1 b2) h2 b1) x
            = cnt s.handles x := by
          intro x
          have e1 := cnt_rebind hI.nodup hl1 b2 x
          have e2 := cnt_rebind hnd' hl2' b1 x
          omega
        simp only [swapFn, hl1, hl2]
        constructor
        · exact hI.sing
        · dsimp only
          rw [rebind_keys, rebind_keys]
          exact hI.nodup
        · intro p hp
          dsimp only at hp ⊢
          rcases mem_rebind hp with hp | hp
          · subst hp
            exact hI.live (h1, b1) (lookup_some_mem hl1)
          · rcases mem_rebind hp with hp | hp
            · subst hp
              exact hI.live (h2, b2) (lookup_some_mem hl2)
            · exact hI.live p hp
        · intro b' bl' hb'0 hbl'
          dsimp only at hbl' ⊢
          rw [hcnt b']
          exact hI.counterEq b' bl' hb'0 hbl'
        · intro b' bl' hb'0 hbl'
          dsimp only at hbl' ⊢
          rw [hcnt b']
          exact hI.hasHandle b' bl' hb'0 hbl'
        · exact hI.freshB
        · exact hI.nextPos

theorem inv_destroy {s : State} (hI : Inv s) (h : Nat) : Inv (destroyFn s h) := by
  cases hl : s.handles.lookup h with
  | none => simpa only [destroyFn, hl] using hI
  | some b =>
    have hmem := lookup_some_mem hl
    have hcnt : ∀ x, cnt (removeHandle s.handles h) x + (if b = x then 1 else 0)
        = cnt s.handles x := cnt_remove hI.nodup hl
    have hnd' : ((removeHandle s.handles h).map Prod.fst).Nodup :=
      (remove_keys_sublist s.handles h).nodup hI.nodup
    have hcnt_other : ∀ x, b ≠ x → cnt (removeHandle s.handles h) x = cnt s.handles x := by
      intro x hx
      have := hcnt x
      rw [if_neg hx] at this
      omega
    simp only [destroyFn, hl]
    by_cases hb0 : b = 0
    · subst hb0
      have hrel : release s.blocks 0 = s.blocks := release_zero hI.sing rfl
      constructor
      · dsimp only; rw [hrel]; exact hI.sing
      · exact hnd'
      · intro p hp
        dsimp only at hp ⊢
        rw [hrel]
        exact hI.live p (mem_remove hp)
      · intro b' bl' hb'0 hbl'
        dsimp only at hbl' ⊢
        rw [hrel] at hbl'
        rw [hcnt_other b' fun hcx => hb'0 hcx.symm]
        exact hI.counterEq b' bl' hb'0 hbl'
      · intro b' bl' hb'0 hbl'
        dsimp only at hbl' ⊢
        rw [hrel] at hbl'
        rw [hcnt_other b' fun hcx => hb'0 hcx.symm]
        exact hI.hasHandle b' bl' hb'0 hbl'
      · intro x hx
        dsimp only at hx ⊢
        rw [hrel]
        exact hI.freshB x hx
      · exact hI.nextPos
    · have hlive : s.blocks b ≠ none := hI.live (h, b) hmem
      obtain ⟨blb, hblb⟩ : ∃ bl, s.blocks b = some bl := by
        cases hsb : s.blocks b with
        | none => exact absurd hsb hlive
        | some bl => exact ⟨bl, rfl⟩
      have hbd : b < s.next := by
        by_contra hcx
        exact hlive (hI.freshB b (by omega))
      have hcc : blb.counter = cnt s.handles b := hI.counterEq b blb hb0 hblb
      have hcge : 1 ≤ cnt s.handles b := hI.hasHandle b blb hb0 hblb
      have hcb : cnt (removeHandle s.handles h) b + 1 = cnt s.handles b := by
        have := hcnt b
        rw [if_pos rfl] at this
        omega
      by_cases hc1 : cnt s.handles b = 1
      · have hrel : release s.blocks b = setBlk s.blocks b none :=
          release_one hblb (by omega)
        constructor
        · dsimp only
          rw [hrel, setBlk_other s.blocks b none fun hcx => hb0 hcx.symm]
          exact hI.sing
        · exact hnd'
        · intro p hp
          dsimp only at hp ⊢
          rw [hrel]
          by_cases hpb : p.2 = b
          · exfalso
            have h1' := cnt_pos_of_mem2 hp
            rw [hpb] at h1'
            omega
          · rw [setBlk_other s.blocks b none hpb]
            exact hI.live p (mem_remove hp)
        · intro b' bl' hb'0 hbl'
          dsimp only at hbl' ⊢
          rw [hrel] at hbl'
          by_cases hb'b : b' = b
          · subst hb'b
            rw [setBlk_at] at hbl'
            cases hbl'
          · rw [setBlk_other s.blocks b none hb'b] at hbl'
            rw [hcnt_other b' fun hcx => hb'b hcx.symm]
            exact hI.counterEq b' bl' hb'0 hbl'
        · intro b' bl' hb'0 hbl'
          dsimp only at hbl' ⊢
          rw [hrel] at hbl'
          by_cases hb'b : b' = b
          · subst hb'b
            rw [setBlk_at] at hbl'
            cases hbl'
          · rw [setBlk_other s.blocks b none hb'b] at hbl'
            rw [hcnt_other b' fun hcx => hb'b hcx.symm]
            exact hI.hasHandle b' bl' hb'0 hbl'
        · intro x hx
          dsimp only at hx ⊢
          rw [hrel, setBlk_other s.blocks b none (by omega)]
          exact hI.freshB x hx
        · exact hI.nextPos
      · have hrel : release s.blocks b
            = setBlk s.blocks b (some { blb with counter := blb.counter - 1 }) :=
          release_many hblb (by omega)
        constructor
        · dsimp only
          rw [hrel, setBlk_other s.blocks b _ fun hcx => hb0 hcx.symm]
          exact hI.sing
        · exact hnd'
        · intro p hp
          dsimp only at hp ⊢
          rw [hrel]
          by_cases hpb : p.2 = b
          · rw [hpb, setBlk_at]
            exact fun hcx => by cases hcx
          · rw [setBlk_other s.blocks b _ hpb]
            exact hI.live p (mem_remove hp)
        · intro b' bl' hb'0 hbl'
          dsimp only at hbl' ⊢
          rw [hrel] at hbl'
          by_cases hb'b : b' = b
          · subst hb'b
            rw [setBlk_at] at hbl'
            cases hbl'
            dsimp only
            omega
          · rw [setBlk_other s.blocks b _ hb'b] at hbl'
            rw [hcnt_other b' fun hcx => hb'b hcx.symm]
            exact hI.counterEq b' bl' hb'0 hbl'
        · intro b' bl' hb'0 hbl'
          dsimp only at hbl' ⊢
          rw [hrel] at hbl'
          by_cases hb'b : b' = b
          · subst hb'b
            omega
          · rw [setBlk_other s.blocks b _ hb'b] at hbl'
            rw [hcnt_other b' fun hcx => hb'b hcx.symm]
            exact hI.hasHandle b' bl' hb'0 hbl'
        · intro x hx
          dsimp only at hx ⊢
          rw [hrel, setBlk_other s.blocks b _ (by omega)]
          exact hI.freshB x hx
        · exact hI.nextPos

theorem inv_copyAssign {s : State} (hI : Inv s) {dst src : Nat}
    (hcap : ∀ b, cnt (copyAssignFn s dst src).handles b < W) :
    Inv (copyAssignFn s dst src) := by
  cases hdst : s.handles.lookup dst with
  | none => simpa only [copyAssignFn, hdst] using hI
  | some bd =>
    cases hsrc : s.handles.lookup src with
    | none => simpa only [copyAssignFn, hdst, hsrc] using hI
    | some bs =>
      by_cases heq : bd = bs
      · simpa only [copyAssignFn, hdst, hsrc, if_pos heq] using hI
      · have hdmem := lookup_some_mem hdst
        have hsmem := lookup_some_mem hsrc
        have hlive_d : s.blocks bd ≠ none := hI.live (dst, bd) hdmem
        have hlive_s : s.blocks bs ≠ none := hI.live (src, bs) hsmem
        obtain ⟨bld, hbld⟩ : ∃ bl, s.blocks bd = some bl := by
          cases hsb : s.blocks bd with
          | none => exact absurd hsb hlive_d
          | some bl => exact ⟨bl, rfl⟩
        obtain ⟨bls, hbls⟩ : ∃ bl, s.blocks bs = some bl := by
          cases hsb : s.blocks bs with
          | none => exact absurd hsb hlive_s
          | some bl => exact ⟨bl, rfl⟩
        have hbdlt : bd < s.next := by
          by_contra hcx
          exact hlive_d (hI.freshB bd (by omega))
        have hbslt : bs < s.next := by
          by_contra hcx
          exact hlive_s (hI.freshB bs (by omega))
        have hcnt := cnt_rebind hI.nodup hdst bs
        have hcnt_other : ∀ x, bd ≠ x → bs ≠ x →
            cnt (rebind s.handles dst bs) x = cnt s.handles x := by
          intro x hx1 hx2
          have := hcnt x
          rw [if_neg hx1, if_neg hx2] at this
          omega
        have hcnt_bs : cnt (rebind s.handles dst bs) bs = cnt s.handles bs + 1 := by
          have := hcnt bs
          rw [if_neg heq, if_pos rfl] at this
          omega
        have hcnt_bd : cnt (rebind s.handles dst bs) bd + 1 = cnt s.handles bd := by
          have := hcnt bd
          rw [if_pos rfl, if_neg fun hcx => heq hcx.symm] at this
          omega
        have hm1_other : ∀ x, x ≠ bd → release s.blocks bd x = s.blocks x :=
          fun x hx => release_other bd hx
        have hm2_other : ∀ x, x ≠ bd → x ≠ bs →
            increment_ref_counter (release s.blocks bd) bs x = s.blocks x := by
          intro x hx1 hx2
          rw [incr_other bs hx2]
          exact hm1_other x hx1
        have hm1_bs : release s.blocks bd bs = some bls := by
          rw [hm1_other bs fun hcx => heq hcx.symm]
          exact hbls
        have hcap' : cnt (rebind s.handles dst bs) bs < W := by
          have := hcap bs
          simpa only [copyAssignFn, hdst, hsrc, if_neg heq] using this
        simp only [copyAssignFn, hdst, hsrc, if_neg heq]
        constructor
        · dsimp only
          exact incr_sing bs (release_sing bd hI.sing)
        · dsimp only
          rw [rebind_keys]
          exact hI.nodup
        · intro p hp
          dsimp only at hp ⊢
          by_cases hpbs : p.2 = bs
          · rw [hpbs]
            by_cases hbs0 : bs = 0
            · subst hbs0
              rw [incr_sing 0 (release_sing bd hI.sing)]
              exact fun hcx => by cases hcx
            · have hcs : bls.counter = cnt s.handles bs := hI.counterEq bs bls hbs0 hbls
              have hcsge : 1 ≤ cnt s.handles bs := hI.hasHandle bs bls hbs0 hbls
              rw [incr_pos hm1_bs (by omega), setBlk_at]
              exact fun hcx => by cases hcx
          · by_cases hpbd : p.2 = bd
            · by_cases hbd0 : bd = 0
              · subst hbd0
                have hbe : bld = emptyBlock := by
                  rw [hI.sing] at hbld
                  exact (Option.some.inj hbld).symm
                have hrel : release s.blocks 0 = s.blocks :=
                  release_zero hbld (by rw [hbe]; rfl)
                rw [hpbd, incr_other bs heq, hrel, hbld]
                exact fun hcx => by cases hcx
              · have hcd : bld.counter = cnt s.handles bd := hI.counterEq bd bld hbd0 hbld
                by_cases hcd1 : cnt s.handles bd = 1
                · exfalso
                  have hge := cnt_pos_of_mem2 hp
                  rw [hpbd] at hge
                  omega
                · have hcdge : 1 ≤ cnt s.handles bd := hI.hasHandle bd bld hbd0 hbld
                  have hrel : release s.blocks bd
                      = setBlk s.blocks bd (some { bld with counter := bld.counter - 1 }) :=
                    release_many hbld (by omega)
                  rw [hpbd, incr_other bs heq, hrel, setBlk_at]
                  exact fun hcx => by cases hcx
            · rw [hm2_other p.2 hpbd hpbs]
              rcases mem_rebind hp with hp | hp
              · rw [hp] at hpbs
                exact absurd rfl hpbs
              · exact hI.live p hp
        · intro b' bl' hb'0 hbl'
          dsimp only at hbl' ⊢
          by_cases hb'bs : b' = bs
          · subst hb'bs
            have hcs : bls.counter = cnt s.handles b' := hI.counterEq b' bls hb'0 hbls
            have hcsge : 1 ≤ cnt s.handles b' := hI.hasHandle b' bls hb'0 hbls
            rw [incr_pos hm1_bs (by omega), setBlk_at] at hbl'
            cases hbl'
            dsimp only
            rw [hcnt_bs, hcs]
            exact Nat.mod_eq_of_lt (by omega)
          · by_cases hb'bd : b' = bd
            · subst hb'bd
              have hcd : bld.counter = cnt s.handles b' := hI.counterEq b' bld hb'0 hbld
              have hcdge : 1 ≤ cnt s.handles b' := hI.hasHandle b' bld hb'0 hbld
              rw [incr_other bs heq] at hbl'
              by_cases hcd1 : cnt s.handles b' = 1
              · rw [release_one hbld (by omega), setBlk_at] at hbl'
                cases hbl'
              · rw [release_many hbld (by omega), setBlk_at] at hbl'
                cases hbl'
                dsimp only
                omega
            · rw [hm2_other b' hb'bd hb'bs] at hbl'
              rw [hcnt_other b' (fun hcx => hb'bd hcx.symm) fun hcx => hb'bs hcx.symm]
              exact hI.counterEq b' bl' hb'0 hbl'
        · intro b' bl' hb'0 hbl'
          dsimp only at hbl' ⊢
          by_cases hb'bs : b' = bs
          · subst hb'bs
            rw [hcnt_bs]
            omega
          · by_cases hb'bd : b' = bd
            · subst hb'bd
              have hcd : bld.counter = cnt s.handles b' := hI.counterEq b' bld hb'0 hbld
              have hcdge : 1 ≤ cnt s.handles b' := hI.hasHandle b' bld hb'0 hbld
              rw [incr_other bs heq] at hbl'
              by_cases hcd1 : cnt s.handles b' = 1
              · rw [release_one hbld (by omega), setBlk_at] at hbl'
                cases hbl'
              · rw [release_many hbld (by omega), setBlk_at] at hbl'
                omega
            · rw [hm2_other b' hb'bd hb'bs] at hbl'
              rw [hcnt_other b' (fun hcx => hb'bd hcx.symm) fun hcx => hb'bs hcx.symm]
              exact hI.hasHandle b' bl' hb'0 hbl'
        · intro x hx
          dsimp only at hx ⊢
          rw [hm2_other x (by omega) (by omega)]
          exact hI.freshB x hx
        · exact hI.nextPos

theorem inv_init : Inv initState := by
  constructor
  · rfl
  · exact List.nodup_nil
  · intro p hp; cases hp
  · intro b bl hb0 hbl
    exfalso
    unfold initState at hbl
    dsimp only at hbl
    rw [if_neg hb0] at hbl
    cases hbl
  · intro b bl hb0 hbl
    exfalso
    unfold initState at hbl
    dsimp only at hbl
    rw [if_neg hb0] at hbl
    cases hbl
  · intro b hb
    unfold initState at hb ⊢
    dsimp only at hb ⊢
    rw [if_neg (by omega)]
  · exact Nat.one_pos

theorem inv_step {s s' : State} (hI : Inv s) (hst : Step s s')
    (hcap : ∀ b, cnt s'.handles b < W) : Inv s' := by
  cases hst with
  | bindEmpty h hf => exact inv_bindEmpty hI hf
  | ctorNew h buf len hf h0 hm hb => exact inv_ctorNew hI buf len hf
  | copyCtor h src hf hl => exact inv_copyCtor hI hf hcap
  | moveCtor h src hf hl => exact inv_moveCtor hI hf
  | copyAssign dst src hd hl => exact inv_copyAssign hI hcap
  | moveAssign dst src hd hl => exact inv_swap hI dst src
  | swapOp h1 h2 he1 he2 => exact inv_swap hI h1 h2
  | destroy h he => exact inv_destroy hI h

theorem inv_reachableB {s : State} (hr : ReachableB s) : Inv s := by
  induction hr with
  | init => exact inv_init
  | step hr hst hcap ih => exact inv_step ih hst hcap

/-- C2 (amended): in every state reachable by constructions, copies, moves,
assignments, swaps and destructions, provided no block ever has `2 ^ 32` or
more simultaneously-bound handles (so the 32-bit counter never wraps): the
empty singleton stays at address 0 with counter `0` and is never deallocated
or mutated; every non-permanent allocated block's counter equals exactly the
number of live handles bound to it and at least one such handle exists (so a
block is deallocated exactly when its last handle is destroyed or rebound);
and every live handle is bound to an allocated block. -/
theorem refcount_invariant (s : State) (hr : ReachableB s) :
    s.blocks 0 = some emptyBlock ∧
    emptyBlock.counter = 0 ∧
    (∀ b bl, b ≠ 0 → s.blocks b = some bl →
      bl.counter = cnt s.handles b ∧ 1 ≤ cnt s.handles b) ∧
    (∀ p ∈ s.handles, s.blocks p.2 ≠ none) := by
  have hI := inv_reachableB hr
  exact ⟨hI.sing, rfl,
    fun b bl hb0 hbl => ⟨hI.counterEq b bl hb0 hbl, hI.hasHandle b bl hb0 hbl⟩,
    hI.live⟩

/-- Witness for `refcount_invariant` at the initial state. -/
theorem refcount_invariant_witness :
    initState.blocks 0 = some emptyBlock ∧
    emptyBlock.counter = 0 ∧
    (∀ b bl, b ≠ 0 → initState.blocks b = some bl →
      bl.counter = cnt initState.handles b ∧ 1 ≤ cnt initState.handles b) ∧
    (∀ p ∈ initState.handles, initState.blocks p.2 ≠ none) :=
  refcount_invariant initState ReachableB.init

/- ------------------------------------------------------------------ -/
/- C2 counterexample: counter wraparound at 2^32 live copies          -/
/- ------------------------------------------------------------------ -/

/-- The handles after one construction and `n - 1` copy constructions:
handle ids `n-1, ..., 0`, all bound to block `1`. -/
def ovHandles (n : Nat) : Handles := (List.range n).reverse.map (fun i => (i, 1))

/-- Block `1` after `n` bindings: its 32-bit counter holds `n % 2 ^ 32`. -/
def ovBlock (n : Nat) : Block := { counter := n % W, len := 1, data := [97, 0] }

/-- The state with `n` live handles all bound to block `1`. -/
def ovState (n : Nat) : State :=
  { blocks := setBlk initState.blocks 1 (some (ovBlock n)),
    handles := ovHandles n,
    next := 2 }

theorem ovHandles_succ (n : Nat) : ovHandles (n + 1) = (n, 1) :: ovHandles n := by
  unfold ovHandles
  rw [List.range_succ, List.reverse_append]
  rfl

theorem lookup_ovHandles (n k : Nat) :
    (ovHandles n).lookup k = if k < n then some 1 else none := by
  induction n with
  | zero => simp [ovHandles]
  | succ n ih =>
    rw [ovHandles_succ]
    by_cases hk : k = n
    · subst hk
      rw [lookup_cons_self, if_pos (by omega)]
    · rw [lookup_cons_ne hk, ih]
      by_cases hlt : k < n
      · rw [if_pos hlt, if_pos (by omega)]
      · rw [if_neg hlt, if_neg (by omega)]

theorem cnt_ovHandles (n : Nat) : cnt (ovHandles n) 1 = n := by
  induction n with
  | zero => rfl
  | succ n ih =>
    rw [ovHandles_succ, cnt_cons, ih]
    simp

theorem ovState_reachable : ∀ n, 1 ≤ n → n ≤ W → Reachable (ovState n) := by
  intro n
  induction n with
  | zero => intro h1 _; omega
  | succ n ih =>
    intro _ hW
    by_cases hn0 : n = 0
    · subst hn0
      have hstep : Step initState (ctorNewFn initState 0 [97] 1) :=
        Step.ctorNew 0 [97] 1 rfl (by decide) (by decide) (by decide)
      have heq : ctorNewFn initState 0 [97] 1 = ovState 1 := by
        unfold ctorNewFn ovState initState ovHandles ovBlock mkBlock
        congr 1
      rw [← heq]
      exact Reachable.step Reachable.init hstep
    · have hr := ih (by omega) (by omega)
      have hlk0 : (ovState n).handles.lookup 0 = some 1 := by
        show (ovHandles n).lookup 0 = some 1
        rw [lookup_ovHandles, if_pos (by omega)]
      have hlkn : (ovState n).handles.lookup n = none := by
        show (ovHandles n).lookup n = none
        rw [lookup_ovHandles, if_neg (by omega)]
      have hstep : Step (ovState n) (copyCtorFn (ovState n) n 0) :=
        Step.copyCtor n 0 hlkn (by rw [hlk0]; exact fun hcx => by cases hcx)
      have hb1 : (ovState n).blocks 1 = some (ovBlock n) := by
        show setBlk initState.blocks 1 (some (ovBlock n)) 1 = _
        rw [setBlk_at]
      have hmod : n % W = n := Nat.mod_eq_of_lt (by omega)
      have hpos : 0 < (ovBlock n).counter := by
        unfold ovBlock
        dsimp only
        omega
      have heq : copyCtorFn (ovState n) n 0 = ovState (n + 1) := by
        simp only [copyCtorFn, hlk0]
        have hincr := incr_pos hb1 hpos
        congr 1
        · rw [hincr]
          funext x
          by_cases hx : x = 1
          · subst hx
            rw [setBlk_at]
            show _ = setBlk initState.blocks 1 (some (ovBlock (n + 1))) 1
            rw [setBlk_at]
            unfold ovBlock
            dsimp only
            rw [hmod]
          · rw [setBlk_other _ _ _ hx]
            show (ovState n).blocks x = (ovState (n + 1)).blocks x
            unfold ovState
            dsimp only
            rw [setBlk_other _ _ _ hx, setBlk_other _ _ _ hx]
        · rw [ovHandles_succ]
          rfl
      rw [← heq]
      exact Reachable.step hr hstep

/-- C2 counterexample: the state after one construction of `"a"` and
`2 ^ 32 - 1` copy constructions — all `2 ^ 32` handles still live — is
reachable, yet block `1`'s 32-bit reference counter has wrapped to `0`
(the `fetch_add` arithmetic is modulo `2 ^ 32`), which is not the number of
live handles bound to it (`2 ^ 32`); the block is then treated as permanent
and is never deallocated even when its handles are all destroyed. -/
theorem refcount_overflow_counterexample :
    Reachable (ovState W) ∧
    (ovState W).blocks 1 = some { counter := 0, len := 1, data := [97, 0] } ∧
    cnt (ovState W).handles 1 = W ∧
    (0 : Nat) ≠ W := by
  have hWpos : 0 < W := pow_pos (by norm_num) 32
  have h1 : Reachable (ovState W) := ovState_reachable W (by omega) (Nat.le_refl W)
  have h2 : (ovState W).blocks 1 = some { counter := 0, len := 1, data := [97, 0] } := by
    show setBlk initState.blocks 1 (some (ovBlock W)) 1 = _
    rw [setBlk_at]
    unfold ovBlock
    rw [Nat.mod_self]
  have hh : ∀ n, (ovState n).handles = ovHandles n := fun _ => rfl
  have h3 : cnt (ovState W).handles 1 = W := by rw [hh W]; exact cnt_ovHandles W
  exact ⟨h1, h2, h3, by omega⟩

end Cstr
